import Mathlib

/-!
Verification of the atmospheric-PSF driver script (scripts/atmpsf.py).

The script is a thin orchestration layer around an external optical-simulation
library.  This file gives a shallow embedding of its original logic:

* the job partitioner (Python 3 float division `npsf / njobs` followed by
  `int(...)` truncation and list slicing), modelled with an exact model of
  IEEE 754 binary64 round-to-nearest-even arithmetic on rationals;
* the deterministic parameter synthesizer in get_atm (altitudes, interpolated
  Ellerbroek weights, per-layer wind speed and direction draws) and the
  per-target sky-angle generation, with the random-stream consumption order
  made explicit via draw traces;
* the idempotent work dispatcher makePSFImage / pool.map / aggregate check;
* the atmosphere persistence helpers: the per-screen dump loop and the
  per-screen load loop, including Python str.replace filename derivation.

The uniform deviate sequence of a seeded galsim.UniformDeviate is abstracted
as a parameter udev : seed -> draw index -> value, and the external library
calls (rendering, pickling, x ** (-3/5)) are abstracted as parameters; all
original control flow and arithmetic of the script is embedded directly.
-/

/- The Batteries rational operations are irreducible by default, which blocks
kernel evaluation in decide; make them semireducible for this development. -/
attribute [local semireducible] Rat.mul Rat.inv Rat.add Rat.sub

deriving instance DecidableEq for Except

/-! ## Exact model of IEEE 754 binary64 arithmetic on rationals

Python floats are IEEE 754 binary64.  A finite positive binary64 value in the
normal range is m * 2 ^ (e - 52) with 2^52 <= m < 2^53; an exact real is
rounded to the nearest such value, ties going to the even mantissa.  The
quantities in the script (npsf / njobs and its small integer multiples) are
far inside the normal range, so overflow and subnormals are not modelled. -/

/-- Fuel-based binary length: blenF f n is the number of binary digits of n,
provided f is at least n (structural recursion on the fuel keeps the
definition kernel-reducible). -/
def blenF : ℕ → ℕ → ℕ
  | 0, _ => 0
  | f+1, n => if n = 0 then 0 else blenF f (n / 2) + 1

/-- Number of binary digits of a natural number (0 for 0). -/
def blen (n : ℕ) : ℕ := blenF n n

/-- Powers of two with integer exponent, as rationals. -/
def pow2 (e : ℤ) : ℚ :=
  if 0 ≤ e then ((2 ^ e.toNat : ℕ) : ℚ) else (((2 : ℕ) ^ (-e).toNat : ℕ) : ℚ)⁻¹

/-- Round a rational to an integer, ties to even. -/
def rhe (q : ℚ) : ℤ :=
  if q - ⌊q⌋ < 1/2 then ⌊q⌋
  else if (1:ℚ)/2 < q - ⌊q⌋ then ⌊q⌋ + 1
  else if ⌊q⌋ % 2 = 0 then ⌊q⌋ else ⌊q⌋ + 1

/-- Binade exponent of a positive rational: the unique e with
2^e <= q < 2^(e+1), computed from the binary lengths of numerator and
denominator. -/
def qlog2 (q : ℚ) : ℤ :=
  if pow2 ((blen q.num.toNat : ℤ) - (blen q.den : ℤ)) ≤ q then
    (blen q.num.toNat : ℤ) - (blen q.den : ℤ)
  else (blen q.num.toNat : ℤ) - (blen q.den : ℤ) - 1

/-- Round a positive rational to the nearest binary64 value (ties to even):
scale into the binade, round the mantissa to an integer, scale back. -/
def posRD (q : ℚ) : ℚ := pow2 (qlog2 q - 52) * rhe (q / pow2 (qlog2 q - 52))

/-- Correctly rounded binary64 value of a rational (round to nearest, ties to
even; normal range). -/
def roundDouble (q : ℚ) : ℚ :=
  if 0 < q then posRD q else if q < 0 then -(posRD (-q)) else 0

/-- Python int() applied to a float: truncation toward zero. -/
def pyInt (q : ℚ) : ℤ := if q < 0 then -⌊-q⌋ else ⌊q⌋

/-- Python errors that the embedded fragments can raise. -/
inductive PyErr
  | zeroDivision
  deriving DecidableEq

/-- Python 3 true division of two integers: raises ZeroDivisionError on a zero
divisor, otherwise produces the correctly rounded binary64 quotient. -/
def pyDivFloat (a b : ℤ) : Except PyErr ℚ :=
  if b = 0 then .error .zeroDivision else .ok (roundDouble ((a : ℚ) / (b : ℚ)))

/-- Binary64 product of a float and an integer (Python float * int). -/
def pyMulFloatInt (x : ℚ) (j : ℤ) : ℚ := roundDouble (x * (j : ℚ))

/-! ## Python list slicing -/

/-- Normalize one Python slice index: negative indices count from the end of
the list, and the result is clamped below at 0 (clamping above happens in
take/drop). -/
def pyIdx (len : ℕ) (x : ℤ) : ℕ := if x < 0 then (x + len).toNat else x.toNat

/-- Python list slicing l[a:b] with integer bounds. -/
def pySlice (l : List α) (a b : ℤ) : List α :=
  (l.take (pyIdx l.length b)).drop (pyIdx l.length a)

/-! ## The job partitioner (atmpsf.py lines 226-229)

psfs_per_job = args.npsf / args.njobs
start, end = int(psfs_per_job*args.job), int(psfs_per_job*(args.job+1))
thetas = thetas[start:end] -/

/-- psfs_per_job as computed by the script for njobs >= 1: the binary64 value
of npsf / njobs. -/
def psfsPerJob (npsf njobs : ℕ) : ℚ := roundDouble ((npsf : ℚ) / (njobs : ℚ))

/-- The slice boundary int(psfs_per_job * j) computed by the script in
binary64 arithmetic. -/
def bnd (npsf njobs j : ℕ) : ℤ := pyInt (pyMulFloatInt (psfsPerJob npsf njobs) (j : ℤ))

/-- The shard of the target list assigned to job j by the script
(start = bnd j, stop = bnd (j+1)). -/
def shardSlice (l : List α) (npsf njobs j : ℕ) : List α :=
  pySlice l (bnd npsf njobs j) (bnd npsf njobs (j+1))

/-- The whole sharding stage including the division, for arbitrary integer
njobs and job: raises ZeroDivisionError when njobs = 0, otherwise slices. -/
def shardStage (l : List α) (npsf njobs job : ℤ) : Except PyErr (List α) :=
  (pyDivFloat npsf njobs).map fun x =>
    pySlice l (pyInt (pyMulFloatInt x job)) (pyInt (pyMulFloatInt x (job + 1)))

/-! ## Random streams and target generation (atmpsf.py lines 182-192)

rng = galsim.BaseDeviate(args.seed+1); u = galsim.UniformDeviate(rng)
thetas = [(i, (u()*args.field_size, u()*args.field_size)) for i in range(args.npsf)]

The deviate sequence of the stream seeded s is abstracted as udev s 0,
udev s 1, ...; a generator returns both its value and the trace of
(stream seed, draw index) pairs in consumption order. -/

/-- Target-list generator: c is the next unconsumed draw index, i the next
target index, r the number of targets still to generate. -/
def genThetasAux (u : ℕ → ℚ) (fS : ℚ) : ℕ → ℕ → ℕ → (List (ℕ × ℚ × ℚ) × List ℕ)
  | _, _, 0 => ([], [])
  | c, i, r+1 =>
    let x := u c * fS
    let y := u (c+1) * fS
    let rest := genThetasAux u fS (c+2) (i+1) r
    ((i, x, y) :: rest.1, c :: (c+1) :: rest.2)

/-- The full (unsharded) theta list and its draw trace, from the stream
seeded seed + 1. -/
def genThetas (udev : ℕ → ℕ → ℚ) (seed npsf : ℕ) (fS : ℚ) :
    (List (ℕ × ℚ × ℚ) × List (ℕ × ℕ)) :=
  ((genThetasAux (udev (seed+1)) fS 0 0 npsf).1,
   (genThetasAux (udev (seed+1)) fS 0 0 npsf).2.map (fun c => (seed+1, c)))

/-! ## The parameter synthesizer get_atm (atmpsf.py lines 16-71) -/

/-- Ellerbroek_alts (km), line 33. -/
def EllerbroekAlts : List ℚ := [0, 258/100, 516/100, 773/100, 1289/100, 1546/100]

/-- Ellerbroek_weights, line 34. -/
def EllerbroekWeights : List ℚ := [652/1000, 172/1000, 55/1000, 25/1000, 74/1000, 22/1000]

/-- Model of the external galsim.LookupTable with the linear interpolant on
the fixed Ellerbroek table, for arguments in the table range (the spec:
linear interpolation of the fixed 6-point reference weight table). -/
def ellInterp (x : ℚ) : ℚ :=
  if x < 258/100 then 652/1000 + (172/1000 - 652/1000) * (x - 0) / (258/100 - 0)
  else if x < 516/100 then 172/1000 + (55/1000 - 172/1000) * (x - 258/100) / (516/100 - 258/100)
  else if x < 773/100 then 55/1000 + (25/1000 - 55/1000) * (x - 516/100) / (773/100 - 516/100)
  else if x < 1289/100 then 25/1000 + (74/1000 - 25/1000) * (x - 773/100) / (1289/100 - 773/100)
  else 74/1000 + (22/1000 - 74/1000) * (x - 1289/100) / (1546/100 - 1289/100)

/-- np.max(Ellerbroek_alts). -/
def maxAlt : ℚ := EllerbroekAlts.foldr max 0

/-- The i-th evenly spaced altitude for nlayers = n (line 39), as an exact
rational, defined when the divisor n - 1 is nonzero. -/
def altQ (n i : ℕ) : ℚ := maxAlt * i / ((n : ℚ) - 1)

/-- alts = np.max(Ellerbroek_alts)*np.arange(n)/(n-1), elementwise numpy
arithmetic: for n = 1 the single entry is 0.0/0, which numpy evaluates to NaN
with a RuntimeWarning but no exception; NaN is modelled as none. -/
def npAlts (n : ℕ) : List (Option ℚ) :=
  (List.range n).map (fun i => if n = 1 then none else some (altQ n i))

/-- weights = Ellerbroek_interp(alts) (line 40), with NaN propagation. -/
def wRaw (n : ℕ) : List (Option ℚ) := (npAlts n).map (Option.map ellInterp)

/-- Addition with NaN propagation. -/
def oadd (x y : Option ℚ) : Option ℚ :=
  match x, y with
  | some a, some b => some (a + b)
  | _, _ => none

/-- numpy sum with NaN propagation (sum of the empty array is 0.0). -/
def osum : List (Option ℚ) → Option ℚ
  | [] => some 0
  | x :: xs => oadd x (osum xs)

/-- Elementwise numpy division with NaN propagation; a zero divisor gives a
non-finite result, also modelled as none (it cannot arise for n >= 2 since
the interpolated weights are positive). -/
def odiv (x s : Option ℚ) : Option ℚ :=
  match x, s with
  | some a, some b => if b = 0 then none else some (a / b)
  | _, _ => none

/-- weights /= sum(weights) (line 41). -/
def wNorm (n : ℕ) : List (Option ℚ) := (wRaw n).map (fun w => odiv w (osum (wRaw n)))

/-- One atmospheric layer as assembled by the loop at lines 52-65: altitude,
wind speed (u()*max_speed), wind direction in degrees (u()*360), and Fried
parameter r0_500*weights[i]**(-3/5); the fractional power is abstracted as
the parameter rpow. -/
structure LayerSpec where
  alt : Option ℚ
  speed : ℚ
  dirn : ℚ
  r0 : Option ℚ
  deriving DecidableEq

/-- The layer loop: c is the next unconsumed draw index of the seed stream,
i the layer index, r the remaining count. -/
def getAtmAux (u : ℕ → ℚ) (rpow : ℚ → ℚ) (alts wn : List (Option ℚ))
    (maxSpd r0b : ℚ) : ℕ → ℕ → ℕ → (List LayerSpec × List ℕ)
  | _, _, 0 => ([], [])
  | c, i, r+1 =>
    let sp := u c * maxSpd
    let dr := u (c+1) * 360
    let rest := getAtmAux u rpow alts wn maxSpd r0b (c+2) (i+1) r
    (⟨alts.getD i none, sp, dr, (wn.getD i none).map (fun w => r0b * rpow w)⟩ :: rest.1,
     c :: (c+1) :: rest.2)

/-- get_atm: layers and the draw trace of the stream seeded with the
configured seed (rng = galsim.BaseDeviate(args.seed), line 21). -/
def getAtm (udev : ℕ → ℕ → ℚ) (rpow : ℚ → ℚ) (seed n : ℕ) (maxSpd r0b : ℚ) :
    (List LayerSpec × List (ℕ × ℕ)) :=
  ((getAtmAux (udev seed) rpow (npAlts n) (wNorm n) maxSpd r0b 0 0 n).1,
   (getAtmAux (udev seed) rpow (npAlts n) (wNorm n) maxSpd r0b 0 0 n).2.map (fun c => (seed, c)))

/-- get_atm as a fallible computation: the script contains no validation of
nlayers and the numpy division does not raise, so the result is ok for every
layer count. -/
def getAtmRun (udev : ℕ → ℕ → ℚ) (rpow : ℚ → ℚ) (seed n : ℕ) (maxSpd r0b : ℚ) :
    Except PyErr (List LayerSpec × List (ℕ × ℕ)) :=
  .ok (getAtm udev rpow seed n maxSpd r0b)

/-- Draw trace of a run that generates thetas (lines 182-192) and then
synthesizes the atmosphere (get_atm, line 204 or 269), in program order. -/
def mainDrawTrace (udev : ℕ → ℕ → ℚ) (rpow : ℚ → ℚ) (seed npsf n : ℕ)
    (fS maxSpd r0b : ℚ) : List (ℕ × ℕ) :=
  (genThetas udev seed npsf fS).2 ++ (getAtm udev rpow seed n maxSpd r0b).2

/-- The target stage of the main block: the full theta list (and its trace)
is computed before the job/njobs values are consulted; sharding only slices
the already generated list. -/
def mainPipeline (udev : ℕ → ℕ → ℚ) (seed npsf : ℕ) (fS : ℚ) (job njobs : ℤ) :
    (List (ℕ × ℚ × ℚ) × List (ℕ × ℕ)) × Except PyErr (List (ℕ × ℚ × ℚ)) :=
  let tt := genThetas udev seed npsf fS
  (tt, shardStage tt.1 (npsf : ℤ) njobs job)

/-! ## Output files and the work dispatcher (lines 88-101, 217-245, 287-294)

Output filenames are structured: the outprefix plus a zero-padded 6-digit
target index plus "-psf.fits" for images (distinct indices give distinct
names, zero padding preserving the value), and "meta_<job>_<njobs>.pkl" for
the metadata file, which differs from every image name. -/

/-- Filenames written in render mode. -/
inductive FName
  | out (i : ℕ)
  | meta (j n : ℕ)
  deriving DecidableEq

/-- File contents. -/
inductive Content
  | img (i : ℕ) (theta : ℚ × ℚ)
  | metaC (j n : ℕ)
  deriving DecidableEq

/-- The filesystem visible to render mode. -/
def FStore := FName → Option Content

/-- The empty filesystem. -/
def emptyFS : FStore := fun _ => none

/-- Result of one worker call. -/
structure WorkerRes where
  ok : Bool
  fs : FStore
  attempted : Bool
  log : List String

/-- makePSFImage (lines 88-101): return True immediately if the output file
exists and clobber is not set; otherwise render (getPSFImage) and write
(galsim.fits.write), catching every exception from either step with the bare
except clause and returning False.  The render-and-write collaborator is the
parameter render; attempted records whether rendering work was performed.
No path of the function prints anything, so the log is empty on every path
(the except clause silently swallows the error). -/
def makePSFImage (render : (ℕ × ℚ × ℚ) → Except Unit Content) (clobber : Bool)
    (fs : FStore) (t : ℕ × ℚ × ℚ) : WorkerRes :=
  if (fs (FName.out t.1)).isSome ∧ clobber = false then ⟨true, fs, false, []⟩
  else
    match render t with
    | .ok c => ⟨true, Function.update fs (FName.out t.1) (some c), true, []⟩
    | .error _ => ⟨false, fs, true, []⟩

/-- successes = pool.map(makePSFImage, thetas) (line 289): the per-target
success flags, the final filesystem, and the number of render attempts.
Workers touch only their own output file, so the sequential fold is faithful
to the process pool. -/
def dispatch (render : (ℕ × ℚ × ℚ) → Except Unit Content) (clobber : Bool) :
    FStore → List (ℕ × ℚ × ℚ) → (List Bool × FStore × ℕ)
  | fs, [] => ([], fs, 0)
  | fs, t :: ts =>
    let w := makePSFImage render clobber fs t
    let rest := dispatch render clobber w.fs ts
    (w.ok :: rest.1, rest.2.1, (if w.attempted then 1 else 0) + rest.2.2)

/-- Result of one render-mode run: final filesystem, number of render
attempts, and whether the run ended with the aggregate RuntimeError. -/
structure RunOut where
  fs : FStore
  renders : ℕ
  fatal : Bool

/-- Metadata write (lines 231-232): dump unless the file exists and clobber
is unset. -/
def metaStep (fs : FStore) (j n : ℕ) (clobber : Bool) : FStore :=
  if (fs (FName.meta j n)).isNone ∨ clobber = true then
    Function.update fs (FName.meta j n) (some (Content.metaC j n))
  else fs

/-- The all-outputs-present check of lines 235-242. -/
def allPresent (fs : FStore) (shard : List (ℕ × ℚ × ℚ)) : Bool :=
  shard.all (fun t => (fs (FName.out t.1)).isSome)

/-- Render mode after sharding (lines 231-294): write metadata, exit early
with success if clobber is unset and every output of the shard is present,
otherwise dispatch all targets and raise RuntimeError if any failed.
Atmosphere construction between the check and the pool writes no files in
this mode. -/
def runRender (render : (ℕ × ℚ × ℚ) → Except Unit Content) (clobber : Bool)
    (shard : List (ℕ × ℚ × ℚ)) (j n : ℕ) (fs0 : FStore) : RunOut :=
  if clobber = false ∧ allPresent (metaStep fs0 j n clobber) shard then
    ⟨metaStep fs0 j n clobber, 0, false⟩
  else
    ⟨(dispatch render clobber (metaStep fs0 j n clobber) shard).2.1,
     (dispatch render clobber (metaStep fs0 j n clobber) shard).2.2,
     !((dispatch render clobber (metaStep fs0 j n clobber) shard).1.all (fun b => b))⟩

/-! ## Atmosphere persistence (lines 195-215 and 248-262)

Pickle filenames are manipulated with Python str.replace; strings are
modelled as lists of characters, and the pickle-file area of the filesystem
as a map from path to the index of the screen stored there (for the dump
loop) or as the list of existing paths (for the load loop). -/

/-- Whether pat occurs as a contiguous substring. -/
def containsSub (pat : List Char) : List Char → Bool
  | [] => pat.isEmpty
  | c :: rest => pat.isPrefixOf (c :: rest) || containsSub pat rest

/-- Fuel-based worker for replaceAll; the fuel is the length of the string,
which is always sufficient. -/
def raAux (pat repl : List Char) : ℕ → List Char → List Char
  | 0, s => s
  | _+1, [] => []
  | f+1, c :: rest =>
    if pat.isPrefixOf (c :: rest) then
      match pat with
      | [] => c :: rest
      | _ :: pt => repl ++ raAux pat repl f (rest.drop pt.length)
    else c :: raAux pat repl f rest

/-- Python str.replace: replace every occurrence of pat by repl, scanning
left to right without overlap. -/
def replaceAll (pat repl s : List Char) : List Char := raAux pat repl s.length s

/-- Decimal digit characters of a natural number, most significant first
(fuel-based; the fuel n+1 is always sufficient). -/
def natDigitsAux : ℕ → ℕ → List Char
  | 0, _ => []
  | f+1, n =>
    if n < 10 then [Char.ofNat (48 + n)]
    else natDigitsAux f (n / 10) ++ [Char.ofNat (48 + n % 10)]

/-- Python str(n) for a natural number. -/
def natDigits (n : ℕ) : List Char := natDigitsAux (n+1) n

/-- The characters of ".pkl". -/
def pklChars : List Char := ['.', 'p', 'k', 'l']

/-- thisatmfile = atmfile.replace(".pkl", "_<i>.pkl") (lines 209 and 253). -/
def screenName (base : List Char) (i : ℕ) : List Char :=
  replaceAll pklChars ('_' :: (natDigits i ++ pklChars)) base

/-- The per-screen dump loop (lines 207-211): write screen i to
screenName base i, in index order. -/
def dumpScreensAux (base : List Char) :
    ℕ → List ℕ → (List Char → Option ℕ) → (List Char → Option ℕ)
  | _, [], fs => fs
  | i, s :: ss, fs =>
    dumpScreensAux base (i+1) ss (Function.update fs (screenName base i) (some s))

/-- Dump all screens starting at index 0. -/
def dumpScreens (base : List Char) (screens : List ℕ) (fs : List Char → Option ℕ) :
    List Char → Option ℕ := dumpScreensAux base 0 screens fs

/-- The per-screen load loop (lines 250-259), with explicit fuel: probe index
0, 1, ... while os.path.isfile succeeds, collecting the loaded files in
order.  A some result means the while condition eventually failed (normal
loop exit); none means the fuel was exhausted with the loop still running. -/
def scanAux (fs : List (List Char)) (base : List Char) : ℕ → ℕ → Option (List (List Char))
  | 0, _ => none
  | f+1, i =>
    if screenName base i ∈ fs then
      (scanAux fs base f (i+1)).map (fun r => screenName base i :: r)
    else some []

/-- The load loop terminates on the filesystem fs iff some amount of fuel
makes it exit normally. -/
def ScanTerminates (fs : List (List Char)) (base : List Char) : Prop :=
  ∃ fuel, (scanAux fs base fuel 0).isSome

/-! ## Concrete sample parameters used in witnesses -/

/-- A sample deviate table: every draw is one half. -/
def udevHalf : ℕ → ℕ → ℚ := fun _ _ => 1/2

/-- A sample fractional-power collaborator. -/
def rpowOne : ℚ → ℚ := fun _ => 1

/-- A collaborator whose rendering always succeeds. -/
def renderOk : (ℕ × ℚ × ℚ) → Except Unit Content :=
  fun t => .ok (Content.img t.1 t.2)

/-- A collaborator that raises inside rendering exactly for target index i0. -/
def renderFailAt (i0 : ℕ) : (ℕ × ℚ × ℚ) → Except Unit Content :=
  fun t => if t.1 = i0 then .error () else .ok (Content.img t.1 t.2)

/-! ### Correctness lemmas for the binary64 model -/

theorem blenF_zero (f : ℕ) : blenF f 0 = 0 := by cases f <;> simp [blenF]

theorem blenF_spec : ∀ f n : ℕ, n ≤ f → 1 ≤ n →
    n < 2 ^ blenF f n ∧ 2 ^ blenF f n ≤ 2 * n := by
  intro f
  induction f with
  | zero => intro n h h1; omega
  | succ f ih =>
    intro n hnf h1
    simp only [blenF, if_neg (by omega : ¬ n = 0)]
    by_cases h2 : n = 1
    · subst h2
      norm_num [blenF_zero]
    · have hge : 1 ≤ n / 2 := by omega
      have hle : n / 2 ≤ f := by omega
      obtain ⟨ha, hb⟩ := ih (n / 2) hle hge
      rw [pow_succ]
      omega

theorem blen_spec (n : ℕ) (h : 1 ≤ n) : n < 2 ^ blen n ∧ 2 ^ blen n ≤ 2 * n :=
  blenF_spec n n le_rfl h

theorem pow2_eq_zpow (e : ℤ) : pow2 e = (2:ℚ) ^ e := by
  unfold pow2
  split
  · next h => rw [Nat.cast_pow, Nat.cast_ofNat, ← zpow_natCast, Int.toNat_of_nonneg h]
  · next h =>
    rw [Nat.cast_pow, Nat.cast_ofNat, ← zpow_natCast,
      Int.toNat_of_nonneg (by omega : (0:ℤ) ≤ -e), ← zpow_neg, neg_neg]

theorem pow2_pos (e : ℤ) : 0 < pow2 e := by
  rw [pow2_eq_zpow]; exact zpow_pos (by norm_num) e

theorem pow2_le_pow2 {m n : ℤ} (h : m ≤ n) : pow2 m ≤ pow2 n := by
  rw [pow2_eq_zpow, pow2_eq_zpow]
  exact zpow_le_zpow_right₀ one_le_two h

theorem pow2_mul_pow2 (m n : ℤ) : pow2 m * pow2 n = pow2 (m + n) := by
  rw [pow2_eq_zpow, pow2_eq_zpow, pow2_eq_zpow, ← zpow_add₀ (two_ne_zero)]

theorem qlog2_spec (q : ℚ) (hq : 0 < q) :
    pow2 (qlog2 q) ≤ q ∧ q < pow2 (qlog2 q + 1) := by
  have hnum : 0 < q.num := Rat.num_pos.mpr hq
  have ha1 : 1 ≤ q.num.toNat := by omega
  have hb1 : 1 ≤ q.den := q.den_pos
  obtain ⟨hA1, hA2⟩ := blen_spec q.num.toNat ha1
  obtain ⟨hB1, hB2⟩ := blen_spec q.den hb1
  set A : ℤ := (blen q.num.toNat : ℤ) with hA
  set B : ℤ := (blen q.den : ℤ) with hB
  have hd : (0:ℚ) < (q.den : ℚ) := by exact_mod_cast hb1
  have hqa : q = (q.num.toNat : ℚ) / (q.den : ℚ) := by
    rw [show ((q.num.toNat : ℚ)) = ((q.num : ℚ)) by exact_mod_cast congrArg Int.cast (Int.toNat_of_nonneg hnum.le)]
    exact (Rat.num_div_den q).symm
  -- numerator and denominator bounds, cast to ℚ with integer exponents
  have hqn1 : (q.num.toNat : ℚ) < pow2 A := by
    rw [pow2_eq_zpow, hA, zpow_natCast]
    exact_mod_cast hA1
  have hqn2 : pow2 A ≤ 2 * (q.num.toNat : ℚ) := by
    rw [pow2_eq_zpow, hA, zpow_natCast]
    exact_mod_cast hA2
  have hqd1 : ((q.den : ℕ) : ℚ) < pow2 B := by
    rw [pow2_eq_zpow, hB, zpow_natCast]
    exact_mod_cast hB1
  have hqd2 : pow2 B ≤ 2 * ((q.den : ℕ) : ℚ) := by
    rw [pow2_eq_zpow, hB, zpow_natCast]
    exact_mod_cast hB2
  -- upper bound: q < pow2 (A - B + 1)
  have hub : q < pow2 (A - B + 1) := by
    rw [hqa, div_lt_iff₀ hd]
    have h1 : pow2 (A - B + 1) * pow2 (B - 1) = pow2 A := by
      rw [pow2_mul_pow2]; ring_nf
    have h2 : pow2 (B - 1) ≤ (q.den : ℚ) := by
      have h3 : pow2 (B - 1) * 2 = pow2 B := by
        rw [show (2:ℚ) = pow2 1 by rw [pow2_eq_zpow]; norm_num, pow2_mul_pow2]
        congr 1; ring
      nlinarith [pow2_pos (B - 1)]
    calc (q.num.toNat : ℚ) < pow2 A := hqn1
    _ = pow2 (A - B + 1) * pow2 (B - 1) := h1.symm
    _ ≤ pow2 (A - B + 1) * (q.den : ℚ) :=
        mul_le_mul_of_nonneg_left h2 (pow2_pos _).le
  -- lower bound: pow2 (A - B - 1) < q
  have hlb : pow2 (A - B - 1) < q := by
    rw [hqa, lt_div_iff₀ hd]
    have h1 : pow2 (A - B - 1) * pow2 B = pow2 (A - 1) := by
      rw [pow2_mul_pow2]; ring_nf
    have h2 : pow2 (A - 1) ≤ (q.num.toNat : ℚ) := by
      have h3 : pow2 (A - 1) * 2 = pow2 A := by
        rw [show (2:ℚ) = pow2 1 by rw [pow2_eq_zpow]; norm_num, pow2_mul_pow2]
        congr 1; ring
      nlinarith [pow2_pos (A - 1)]
    calc pow2 (A - B - 1) * (q.den : ℚ) < pow2 (A - B - 1) * pow2 B :=
        mul_lt_mul_of_pos_left hqd1 (pow2_pos _)
    _ = pow2 (A - 1) := h1
    _ ≤ (q.num.toNat : ℚ) := h2
  unfold qlog2
  split
  · next h => exact ⟨h, hub⟩
  · next h =>
    push_neg at h
    refine ⟨hlb.le, ?_⟩
    show q < pow2 (A - B - 1 + 1)
    have he : A - B - 1 + 1 = A - B := by ring
    rw [he]
    exact h

theorem floor_le_rhe (q : ℚ) : ⌊q⌋ ≤ rhe q := by
  unfold rhe; split_ifs <;> omega

theorem rhe_le_floor_add_one (q : ℚ) : rhe q ≤ ⌊q⌋ + 1 := by
  unfold rhe; split_ifs <;> omega

theorem le_rhe (q : ℚ) : q - 1/2 ≤ (rhe q : ℚ) := by
  have h1 := Int.floor_le q
  have h2 := Int.lt_floor_add_one q
  unfold rhe; split_ifs <;> push_cast <;> linarith

theorem rhe_le (q : ℚ) : (rhe q : ℚ) ≤ q + 1/2 := by
  have h1 := Int.floor_le q
  have h2 := Int.lt_floor_add_one q
  unfold rhe; split_ifs <;> push_cast <;> linarith

theorem rhe_mono {q r : ℚ} (h : q ≤ r) : rhe q ≤ rhe r := by
  by_cases hf : ⌊q⌋ = ⌊r⌋
  · have h1 := Int.floor_le q
    have h2 := Int.lt_floor_add_one q
    unfold rhe
    split_ifs <;>
      first
        | omega
        | (exfalso; rw [hf] at *; linarith)
  · have hlt : ⌊q⌋ < ⌊r⌋ := lt_of_le_of_ne (Int.floor_mono h) hf
    have hq1 := rhe_le_floor_add_one q
    have hr1 := floor_le_rhe r
    omega

theorem posRD_le_pow2_succ {q : ℚ} (hq : 0 < q) : posRD q ≤ pow2 (qlog2 q + 1) := by
  obtain ⟨hlo, hhi⟩ := qlog2_spec q hq
  have hδ : (0:ℚ) < pow2 (qlog2 q - 52) := pow2_pos _
  have hx : q / pow2 (qlog2 q - 52) < pow2 53 := by
    rw [div_lt_iff₀ hδ, pow2_mul_pow2]
    have he : (53 : ℤ) + (qlog2 q - 52) = qlog2 q + 1 := by ring
    rw [he]
    exact hhi
  have hp : pow2 (53:ℤ) = (((2:ℤ) ^ (53:ℕ) : ℤ) : ℚ) := by
    rw [pow2_eq_zpow]; norm_num
  have hrh : (rhe (q / pow2 (qlog2 q - 52)) : ℚ) < pow2 53 + 1 := by
    have := rhe_le (q / pow2 (qlog2 q - 52))
    linarith
  have hrz : rhe (q / pow2 (qlog2 q - 52)) ≤ (2:ℤ) ^ (53:ℕ) := by
    rw [hp] at hrh
    have h2 : rhe (q / pow2 (qlog2 q - 52)) < (2:ℤ) ^ (53:ℕ) + 1 := by
      exact_mod_cast hrh
    exact Int.lt_add_one_iff.mp h2
  calc posRD q = pow2 (qlog2 q - 52) * (rhe (q / pow2 (qlog2 q - 52)) : ℚ) := rfl
  _ ≤ pow2 (qlog2 q - 52) * pow2 53 := by
      rw [hp]
      apply mul_le_mul_of_nonneg_left _ hδ.le
      exact_mod_cast hrz
  _ = pow2 (qlog2 q + 1) := by rw [pow2_mul_pow2]; congr 1; ring

theorem pow2_le_posRD {q : ℚ} (hq : 0 < q) : pow2 (qlog2 q) ≤ posRD q := by
  obtain ⟨hlo, hhi⟩ := qlog2_spec q hq
  have hδ : (0:ℚ) < pow2 (qlog2 q - 52) := pow2_pos _
  have hx : pow2 52 ≤ q / pow2 (qlog2 q - 52) := by
    rw [le_div_iff₀ hδ, pow2_mul_pow2]
    have he : (52 : ℤ) + (qlog2 q - 52) = qlog2 q := by ring
    rw [he]
    exact hlo
  have hp : pow2 (52:ℤ) = (((2:ℤ) ^ (52:ℕ) : ℤ) : ℚ) := by
    rw [pow2_eq_zpow]; norm_num
  have hrh : pow2 52 - 1/2 ≤ (rhe (q / pow2 (qlog2 q - 52)) : ℚ) := by
    have := le_rhe (q / pow2 (qlog2 q - 52))
    linarith
  have hrz : (2:ℤ) ^ (52:ℕ) ≤ rhe (q / pow2 (qlog2 q - 52)) := by
    rw [hp] at hrh
    have h2 : (((2:ℤ)^(52:ℕ) : ℤ) : ℚ) - 1 < (rhe (q / pow2 (qlog2 q - 52)) : ℚ) := by linarith
    have h3 : (2:ℤ)^(52:ℕ) - 1 < rhe (q / pow2 (qlog2 q - 52)) := by exact_mod_cast h2
    omega
  calc pow2 (qlog2 q) = pow2 (qlog2 q - 52) * pow2 52 := by
        rw [pow2_mul_pow2]; congr 1; ring
  _ ≤ pow2 (qlog2 q - 52) * (rhe (q / pow2 (qlog2 q - 52)) : ℚ) := by
        rw [hp]
        apply mul_le_mul_of_nonneg_left _ hδ.le
        exact_mod_cast hrz
  _ = posRD q := rfl

theorem posRD_pos {q : ℚ} (hq : 0 < q) : 0 < posRD q :=
  lt_of_lt_of_le (pow2_pos _) (pow2_le_posRD hq)

theorem qlog2_mono {q r : ℚ} (hq : 0 < q) (h : q ≤ r) : qlog2 q ≤ qlog2 r := by
  have hr : 0 < r := hq.trans_le h
  by_contra hc
  push_neg at hc
  have h1 : qlog2 r + 1 ≤ qlog2 q := hc
  have h2 : pow2 (qlog2 r + 1) ≤ pow2 (qlog2 q) := pow2_le_pow2 h1
  obtain ⟨hq1, _⟩ := qlog2_spec q hq
  obtain ⟨_, hr2⟩ := qlog2_spec r hr
  linarith

theorem posRD_mono {q r : ℚ} (hq : 0 < q) (h : q ≤ r) : posRD q ≤ posRD r := by
  have hr : 0 < r := hq.trans_le h
  rcases eq_or_lt_of_le (qlog2_mono hq h) with heq | hlt
  · unfold posRD
    rw [← heq]
    have hδ : (0:ℚ) < pow2 (qlog2 q - 52) := pow2_pos _
    apply mul_le_mul_of_nonneg_left _ hδ.le
    have hdd : q / pow2 (qlog2 q - 52) ≤ r / pow2 (qlog2 q - 52) :=
      (div_le_div_iff_of_pos_right hδ).mpr h
    exact_mod_cast rhe_mono hdd
  · calc posRD q ≤ pow2 (qlog2 q + 1) := posRD_le_pow2_succ hq
    _ ≤ pow2 (qlog2 r) := pow2_le_pow2 (by omega)
    _ ≤ posRD r := pow2_le_posRD hr

theorem roundDouble_zero : roundDouble 0 = 0 := by norm_num [roundDouble]

theorem roundDouble_nonneg {q : ℚ} (h : 0 ≤ q) : 0 ≤ roundDouble q := by
  unfold roundDouble
  split_ifs with h1 h2
  · exact (posRD_pos h1).le
  · linarith
  · exact le_rfl

theorem roundDouble_mono {q r : ℚ} (h0 : 0 ≤ q) (h : q ≤ r) :
    roundDouble q ≤ roundDouble r := by
  by_cases hq : 0 < q
  · have hrpos : 0 < r := lt_of_lt_of_le hq h
    unfold roundDouble
    rw [if_pos hq, if_pos hrpos]
    exact posRD_mono hq h
  · have hq0 : q = 0 := le_antisymm (not_lt.mp hq) h0
    rw [hq0, roundDouble_zero]
    exact roundDouble_nonneg (hq0 ▸ h)

theorem pyInt_of_nonneg {q : ℚ} (h : 0 ≤ q) : pyInt q = ⌊q⌋ := by
  unfold pyInt
  rw [if_neg (by linarith)]

/-! ### Slice and boundary lemmas for the partitioner -/

theorem pySlice_of_nonneg (l : List α) {a b : ℤ} (ha : 0 ≤ a) (hb : 0 ≤ b) :
    pySlice l a b = (l.take b.toNat).drop a.toNat := by
  unfold pySlice pyIdx
  rw [if_neg (not_lt.mpr ha), if_neg (not_lt.mpr hb)]

theorem dropTake_glue (l : List α) {a b c : ℕ} (hab : a ≤ b) (hbc : b ≤ c) :
    ((l.take b).drop a) ++ ((l.take c).drop b) = (l.take c).drop a := by
  have h1 : (l.take c).take b = l.take b := by
    rw [List.take_take, min_eq_left hbc]
  conv_rhs => rw [← List.take_append_drop b (l.take c)]
  rw [List.drop_append_eq_append_drop, h1]
  congr 1
  rcases le_or_lt a (l.take b).length with h | h
  · rw [Nat.sub_eq_zero_of_le h, List.drop_zero]
  · have hlen : l.length < a := by
      rw [List.length_take] at h
      omega
    have h2 : (l.take c).drop b = [] := by
      apply List.drop_of_length_le
      rw [List.length_take]
      omega
    rw [h2, List.drop_nil]

theorem join_map_slices (l : List α) (g : ℕ → ℕ) (hmono : Monotone g) :
    ∀ m : ℕ,
      ((List.range m).map (fun j => (l.take (g (j+1))).drop (g j))).flatten
        = (l.take (g m)).drop (g 0) := by
  intro m
  induction m with
  | zero =>
    simp only [List.range_zero, List.map_nil, List.flatten_nil]
    symm
    apply List.drop_of_length_le
    rw [List.length_take]
    omega
  | succ m ih =>
    rw [List.range_succ, List.map_append, List.flatten_append, ih]
    simp only [List.map_cons, List.map_nil, List.flatten_cons, List.flatten_nil, List.append_nil]
    exact dropTake_glue l (hmono (Nat.zero_le m)) (hmono (Nat.le_succ m))

theorem psfsPerJob_nonneg (npsf njobs : ℕ) : 0 ≤ psfsPerJob npsf njobs :=
  roundDouble_nonneg (div_nonneg (Nat.cast_nonneg _) (Nat.cast_nonneg _))

theorem bnd_nonneg (npsf njobs j : ℕ) : 0 ≤ bnd npsf njobs j := by
  unfold bnd
  have h : 0 ≤ pyMulFloatInt (psfsPerJob npsf njobs) (j : ℤ) :=
    roundDouble_nonneg (mul_nonneg (psfsPerJob_nonneg _ _) (by positivity))
  rw [pyInt_of_nonneg h]
  exact Int.floor_nonneg.mpr h

theorem bnd_mono (npsf njobs : ℕ) {j k : ℕ} (h : j ≤ k) :
    bnd npsf njobs j ≤ bnd npsf njobs k := by
  unfold bnd
  have hx := psfsPerJob_nonneg npsf njobs
  have hj : 0 ≤ pyMulFloatInt (psfsPerJob npsf njobs) (j : ℤ) :=
    roundDouble_nonneg (mul_nonneg hx (by positivity))
  have hk : 0 ≤ pyMulFloatInt (psfsPerJob npsf njobs) (k : ℤ) :=
    roundDouble_nonneg (mul_nonneg hx (by positivity))
  rw [pyInt_of_nonneg hj, pyInt_of_nonneg hk]
  apply Int.floor_le_floor
  unfold pyMulFloatInt
  apply roundDouble_mono (mul_nonneg hx (by positivity))
  apply mul_le_mul_of_nonneg_left _ hx
  push_cast
  exact_mod_cast h

theorem bnd_zero (npsf njobs : ℕ) : bnd npsf njobs 0 = 0 := by
  unfold bnd pyMulFloatInt
  norm_num [roundDouble_zero, pyInt]

theorem shardSlice_eq_dropTake (l : List α) (npsf njobs j : ℕ) :
    shardSlice l npsf njobs j
      = (l.take (bnd npsf njobs (j+1)).toNat).drop (bnd npsf njobs j).toNat := by
  unfold shardSlice
  exact pySlice_of_nonneg l (bnd_nonneg _ _ _) (bnd_nonneg _ _ _)

/-- The job boundaries, as natural numbers. -/
def bndN (npsf njobs j : ℕ) : ℕ := (bnd npsf njobs j).toNat

theorem bndN_mono (npsf njobs : ℕ) : Monotone (bndN npsf njobs) := by
  intro j k h
  unfold bndN
  exact Int.toNat_le_toNat (bnd_mono npsf njobs h)

theorem bndN_zero (npsf njobs : ℕ) : bndN npsf njobs 0 = 0 := by
  unfold bndN
  rw [bnd_zero]
  rfl

/-- Concatenating the slices of all jobs 0 .. njobs-1 yields the prefix of the
target list up to the last computed boundary (the whole list exactly when that
boundary reaches the list length). -/
theorem shardSlices_join (l : List α) (npsf njobs : ℕ) :
    ((List.range njobs).map (fun j => shardSlice l npsf njobs j)).flatten
      = l.take (bndN npsf njobs njobs) := by
  have h : ∀ j, shardSlice l npsf njobs j
      = (l.take (bndN npsf njobs (j+1))).drop (bndN npsf njobs j) := fun j =>
    shardSlice_eq_dropTake l npsf njobs j
  calc ((List.range njobs).map (fun j => shardSlice l npsf njobs j)).flatten
      = ((List.range njobs).map
          (fun j => (l.take (bndN npsf njobs (j+1))).drop (bndN npsf njobs j))).flatten := by
        congr 1
        exact List.map_congr_left (fun j _ => h j)
  _ = (l.take (bndN npsf njobs njobs)).drop (bndN npsf njobs 0) :=
        join_map_slices l (bndN npsf njobs) (bndN_mono npsf njobs) njobs
  _ = l.take (bndN npsf njobs njobs) := by rw [bndN_zero, List.drop_zero]

section FloatChecks

example : roundDouble (4/2) = 2 := by decide
example : roundDouble ((1:ℚ)/49) = 5882252574524729 / 2^58 := by decide
example : bnd 1 49 49 = 0 := by decide
example : bnd 4 2 1 = 2 := by decide
example : bnd 4 2 2 = 4 := by decide
example : shardSlice [0,1,2,3] 4 2 0 = [0,1] := by decide
example : shardSlice [0,1,2,3] 4 2 1 = [2,3] := by decide
example : shardSlice [0] 1 49 48 = ([] : List ℕ) := by decide
example : shardStage [0] 16 0 0 = .error .zeroDivision := by decide
example : shardStage (List.range 16) 16 2 3 = .ok [] := by decide

end FloatChecks

/-! ### Lemmas about the generators and their draw traces -/

theorem genThetasAux_trace (u : ℕ → ℚ) (fS : ℚ) :
    ∀ (r c i : ℕ), (genThetasAux u fS c i r).2 = List.range' c (2*r) := by
  intro r
  induction r with
  | zero => intro c i; rfl
  | succ r ih =>
    intro c i
    simp only [genThetasAux]
    rw [show 2*(r+1) = 2*r+1+1 by ring, List.range'_succ, List.range'_succ]
    simp [ih]

theorem genThetasAux_get (u : ℕ → ℚ) (fS : ℚ) :
    ∀ (r c i k : ℕ), (genThetasAux u fS c i r).1[k]? =
      if k < r then some (i + k, u (c + 2*k) * fS, u (c + 2*k + 1) * fS) else none := by
  intro r
  induction r with
  | zero => intro c i k; simp [genThetasAux]
  | succ r ih =>
    intro c i k
    cases k with
    | zero => simp [genThetasAux]
    | succ k =>
      simp only [genThetasAux, List.getElem?_cons_succ, ih (c+2) (i+1) k]
      have h1 : c + 2 + 2*k = c + 2*(k+1) := by ring
      have h3 : i + 1 + k = i + (k+1) := by ring
      rw [h1, h3]
      congr 1
      simp [Nat.succ_lt_succ_iff]

theorem getAtmAux_trace (u : ℕ → ℚ) (rpow : ℚ → ℚ) (alts wn : List (Option ℚ))
    (maxSpd r0b : ℚ) :
    ∀ (r c i : ℕ), (getAtmAux u rpow alts wn maxSpd r0b c i r).2 = List.range' c (2*r) := by
  intro r
  induction r with
  | zero => intro c i; rfl
  | succ r ih =>
    intro c i
    simp only [getAtmAux]
    rw [show 2*(r+1) = 2*r+1+1 by ring, List.range'_succ, List.range'_succ]
    simp [ih]

theorem getAtmAux_get (u : ℕ → ℚ) (rpow : ℚ → ℚ) (alts wn : List (Option ℚ))
    (maxSpd r0b : ℚ) :
    ∀ (r c i k : ℕ), (getAtmAux u rpow alts wn maxSpd r0b c i r).1[k]? =
      if k < r then
        some ⟨alts.getD (i+k) none, u (c + 2*k) * maxSpd, u (c + 2*k + 1) * 360,
          (wn.getD (i+k) none).map (fun w => r0b * rpow w)⟩
      else none := by
  intro r
  induction r with
  | zero => intro c i k; simp [getAtmAux]
  | succ r ih =>
    intro c i k
    cases k with
    | zero => simp [getAtmAux]
    | succ k =>
      simp only [getAtmAux, List.getElem?_cons_succ, ih (c+2) (i+1) k]
      have h1 : c + 2 + 2*k = c + 2*(k+1) := by ring
      have h3 : i + 1 + k = i + (k+1) := by ring
      rw [h1, h3]
      congr 1
      simp [Nat.succ_lt_succ_iff]

/-! ### Lemmas about altitudes, interpolated weights, and their sum -/

theorem maxAlt_eq : maxAlt = 1546/100 := by decide

theorem ellInterp_pos {x : ℚ} (h0 : 0 ≤ x) (h1 : x ≤ 1546/100) : 0 < ellInterp x := by
  unfold ellInterp
  split_ifs with a b c d <;> (ring_nf; linarith)

theorem altQ_nonneg {n : ℕ} (hn : 2 ≤ n) (i : ℕ) : 0 ≤ altQ n i := by
  unfold altQ
  have hd : (0:ℚ) < (n:ℚ) - 1 := by
    have : (2:ℚ) ≤ (n:ℚ) := by exact_mod_cast hn
    linarith
  apply div_nonneg _ hd.le
  apply mul_nonneg _ (Nat.cast_nonneg i)
  rw [maxAlt_eq]
  norm_num

theorem altQ_le {n i : ℕ} (hn : 2 ≤ n) (hi : i < n) : altQ n i ≤ 1546/100 := by
  unfold altQ
  rw [maxAlt_eq]
  have hd : (0:ℚ) < (n:ℚ) - 1 := by
    have : (2:ℚ) ≤ (n:ℚ) := by exact_mod_cast hn
    linarith
  rw [div_le_iff₀ hd]
  have hi2 : (i:ℚ) ≤ (n:ℚ) - 1 := by
    have : (i:ℚ) + 1 ≤ (n:ℚ) := by exact_mod_cast hi
    linarith
  nlinarith

theorem altQ_strictMono {n i : ℕ} (hn : 2 ≤ n) (hi : i + 1 < n) :
    altQ n i < altQ n (i+1) := by
  unfold altQ
  have hd : (0:ℚ) < (n:ℚ) - 1 := by
    have : (2:ℚ) ≤ (n:ℚ) := by exact_mod_cast hn
    linarith
  apply div_lt_div_of_pos_right _ hd
  have hip : (i:ℚ) < ((i+1 : ℕ) : ℚ) := by exact_mod_cast Nat.lt_succ_self i
  have hma : (0:ℚ) < maxAlt := by rw [maxAlt_eq]; norm_num
  exact mul_lt_mul_of_pos_left hip hma

theorem npAlts_get {n : ℕ} (hn : 2 ≤ n) {i : ℕ} (hi : i < n) :
    (npAlts n)[i]? = some (some (altQ n i)) := by
  unfold npAlts
  rw [List.getElem?_map, List.getElem?_range hi]
  simp [if_neg (by omega : ¬ n = 1)]

theorem osum_map_some (l : List ℚ) : osum (l.map some) = some l.sum := by
  induction l with
  | nil => rfl
  | cons a t ih => simp [osum, oadd, ih]

theorem sum_map_div (l : List ℚ) (s : ℚ) :
    (l.map (fun x => x / s)).sum = l.sum / s := by
  induction l with
  | nil => simp
  | cons a t ih => simp [add_div, ih]

theorem wRaw_eq {n : ℕ} (hn : 2 ≤ n) :
    wRaw n = ((List.range n).map (fun i => ellInterp (altQ n i))).map some := by
  unfold wRaw npAlts
  rw [List.map_map, List.map_map]
  apply List.map_congr_left
  intro i _
  simp [if_neg (by omega : ¬ n = 1)]

theorem wSum_pos {n : ℕ} (hn : 2 ≤ n) :
    0 < ((List.range n).map (fun i => ellInterp (altQ n i))).sum := by
  apply List.sum_pos
  · intro a ha
    rw [List.mem_map] at ha
    obtain ⟨i, hi, rfl⟩ := ha
    exact ellInterp_pos (altQ_nonneg hn i) (altQ_le hn (List.mem_range.mp hi))
  · have h0 : n ≠ 0 := by omega
    simp [List.map_eq_nil_iff, List.range_eq_nil, h0]

theorem wNorm_sum {n : ℕ} (hn : 2 ≤ n) : osum (wNorm n) = some 1 := by
  have hw := wRaw_eq hn
  have hS : osum (wRaw n) = some ((List.range n).map (fun i => ellInterp (altQ n i))).sum := by
    rw [hw]
    exact osum_map_some _
  have hpos := wSum_pos hn
  have hstep : wNorm n = (((List.range n).map (fun i => ellInterp (altQ n i))).map
      (fun x => x / ((List.range n).map (fun i => ellInterp (altQ n i))).sum)).map some := by
    unfold wNorm
    rw [hS, hw]
    simp only [List.map_map]
    apply List.map_congr_left
    intro i _
    simp [odiv, Function.comp, if_neg hpos.ne']
  rw [hstep, osum_map_some, sum_map_div, div_self hpos.ne']

theorem getAtmAux_len (u : ℕ → ℚ) (rpow : ℚ → ℚ) (alts wn : List (Option ℚ))
    (maxSpd r0b : ℚ) :
    ∀ r c i, (getAtmAux u rpow alts wn maxSpd r0b c i r).1.length = r := by
  intro r
  induction r with
  | zero => intro c i; rfl
  | succ r ih => intro c i; simp [getAtmAux, ih]

theorem getAtm_len (udev : ℕ → ℕ → ℚ) (rpow : ℚ → ℚ) (seed n : ℕ) (maxSpd r0b : ℚ) :
    (getAtm udev rpow seed n maxSpd r0b).1.length = n := by
  unfold getAtm
  simp [getAtmAux_len]

theorem genThetasAux_len (u : ℕ → ℚ) (fS : ℚ) :
    ∀ r c i, (genThetasAux u fS c i r).1.length = r := by
  intro r
  induction r with
  | zero => intro c i; rfl
  | succ r ih => intro c i; simp [genThetasAux, ih]

theorem genThetas_len (udev : ℕ → ℕ → ℚ) (seed npsf : ℕ) (fS : ℚ) :
    (genThetas udev seed npsf fS).1.length = npsf := by
  unfold genThetas
  simp [genThetasAux_len]

/-! ### Lemmas about filename replacement, the load loop, and the dump loop -/

theorem raAux_no_occ (pat repl : List Char) :
    ∀ (s : List Char) (f : ℕ), containsSub pat s = false → raAux pat repl f s = s := by
  intro s
  induction s with
  | nil => intro f _; cases f <;> rfl
  | cons c rest ih =>
    intro f h
    have h2 : pat.isPrefixOf (c :: rest) = false ∧ containsSub pat rest = false := by
      simpa [containsSub, Bool.or_eq_false_iff] using h
    cases f with
    | zero => rfl
    | succ f =>
      simp only [raAux]
      rw [if_neg (by simp [h2.1] : ¬ (pat.isPrefixOf (c :: rest) = true))]
      rw [ih f h2.2]

theorem replaceAll_no_occ {pat s : List Char} (repl : List Char)
    (h : containsSub pat s = false) : replaceAll pat repl s = s :=
  raAux_no_occ pat repl s s.length h

theorem screenName_no_pkl {base : List Char} (h : containsSub pklChars base = false)
    (i : ℕ) : screenName base i = base :=
  replaceAll_no_occ _ h

theorem scanAux_stuck (fs : List (List Char)) (base : List Char)
    (h : ∀ i, screenName base i ∈ fs) : ∀ f i, scanAux fs base f i = none := by
  intro f
  induction f with
  | zero => intro i; rfl
  | succ f ih =>
    intro i
    simp only [scanAux, if_pos (h i)]
    rw [ih (i+1)]
    rfl

theorem scanAux_spec (fs : List (List Char)) (base : List Char) :
    ∀ (m i : ℕ), (∀ j, j < m → screenName base (i+j) ∈ fs) →
      screenName base (i+m) ∉ fs →
      ∀ f, m < f →
        scanAux fs base f i = some ((List.range m).map (fun j => screenName base (i+j))) := by
  intro m
  induction m with
  | zero =>
    intro i hin hout f hf
    obtain ⟨f', rfl⟩ : ∃ f', f = f'+1 := ⟨f-1, by omega⟩
    simp only [scanAux]
    rw [if_neg (by simpa using hout)]
    simp
  | succ m ih =>
    intro i hin hout f hf
    obtain ⟨f', rfl⟩ : ∃ f', f = f'+1 := ⟨f-1, by omega⟩
    simp only [scanAux]
    rw [if_pos (by simpa using hin 0 (by omega))]
    have hin' : ∀ j, j < m → screenName base (i+1+j) ∈ fs := by
      intro j hj
      have := hin (j+1) (by omega)
      rwa [show i + (j+1) = i+1+j by omega] at this
    have hout' : screenName base (i+1+m) ∉ fs := by
      rwa [show i + (m+1) = i+1+m by omega] at hout
    rw [ih (i+1) hin' hout' f' (by omega)]
    have hlist : (List.range (m+1)).map (fun j => screenName base (i+j))
        = screenName base i :: (List.range m).map (fun j => screenName base (i+1+j)) := by
      rw [List.range_succ_eq_map]
      simp only [List.map_cons, List.map_map, Nat.add_zero]
      congr 1
      apply List.map_congr_left
      intro j _
      simp only [Function.comp]
      congr 1
      omega
    rw [hlist]
    rfl

theorem dumpScreensAux_const {base : List Char} (hc : ∀ i, screenName base i = base) :
    ∀ (screens : List ℕ) (i : ℕ) (fs : List Char → Option ℕ),
      dumpScreensAux base i screens fs =
        match screens.getLast? with
        | none => fs
        | some s => Function.update fs base (some s) := by
  intro screens
  induction screens with
  | nil => intro i fs; rfl
  | cons s ss ih =>
    intro i fs
    have hstep : dumpScreensAux base i (s :: ss) fs
        = dumpScreensAux base (i+1) ss (Function.update fs (screenName base i) (some s)) := rfl
    rw [hstep, hc i, ih (i+1)]
    cases ss with
    | nil => rfl
    | cons s2 ss2 =>
      rw [List.getLast?_cons_cons]
      rcases hx : (s2 :: ss2).getLast? with _ | x
      · have hs : (s2 :: ss2).getLast?.isSome := List.getLast?_isSome.mpr (by simp)
        rw [hx] at hs
        simp at hs
      · simp only [hx]
        rw [Function.update_idem]

/-! ### Lemmas about the worker and the dispatcher -/

theorem makePSFImage_skip (render : (ℕ × ℚ × ℚ) → Except Unit Content)
    (fs : FStore) (t : ℕ × ℚ × ℚ) (h : (fs (FName.out t.1)).isSome) :
    makePSFImage render false fs t = ⟨true, fs, false, []⟩ := by
  unfold makePSFImage
  rw [if_pos ⟨h, rfl⟩]

theorem makePSFImage_fail (render : (ℕ × ℚ × ℚ) → Except Unit Content)
    (clobber : Bool) (fs : FStore) (t : ℕ × ℚ × ℚ) (e : Unit)
    (hr : render t = .error e)
    (hns : ¬ ((fs (FName.out t.1)).isSome ∧ clobber = false)) :
    makePSFImage render clobber fs t = ⟨false, fs, true, []⟩ := by
  unfold makePSFImage
  rw [if_neg hns, hr]

theorem makePSFImage_only_out (render : (ℕ × ℚ × ℚ) → Except Unit Content)
    (clobber : Bool) (fs : FStore) (t : ℕ × ℚ × ℚ) (f : FName)
    (hf : f ≠ FName.out t.1) :
    (makePSFImage render clobber fs t).fs f = fs f := by
  unfold makePSFImage
  split_ifs
  · rfl
  · cases hr : render t with
    | ok c => simp [Function.update_noteq hf]
    | error e => rfl

theorem makePSFImage_isSome_mono (render : (ℕ × ℚ × ℚ) → Except Unit Content)
    (clobber : Bool) (fs : FStore) (t : ℕ × ℚ × ℚ) (f : FName)
    (h : (fs f).isSome) : ((makePSFImage render clobber fs t).fs f).isSome := by
  unfold makePSFImage
  split_ifs
  · exact h
  · cases hr : render t with
    | ok c =>
      by_cases hfo : f = FName.out t.1
      · subst hfo; simp [Function.update_same]
      · simp [Function.update_noteq hfo, h]
    | error e => exact h

theorem makePSFImage_writes (render : (ℕ × ℚ × ℚ) → Except Unit Content)
    (clobber : Bool) (fs : FStore) (t : ℕ × ℚ × ℚ) (c : Content)
    (hr : render t = .ok c) :
    ((makePSFImage render clobber fs t).fs (FName.out t.1)).isSome := by
  unfold makePSFImage
  split_ifs with hc
  · exact hc.1
  · simp [hr, Function.update_same]

theorem dispatch_isSome_mono (render : (ℕ × ℚ × ℚ) → Except Unit Content)
    (clobber : Bool) :
    ∀ (shard : List (ℕ × ℚ × ℚ)) (fs : FStore) (f : FName), (fs f).isSome →
      (((dispatch render clobber fs shard).2.1) f).isSome := by
  intro shard
  induction shard with
  | nil => intro fs f h; exact h
  | cons t ts ih =>
    intro fs f h
    simp only [dispatch]
    exact ih _ f (makePSFImage_isSome_mono render clobber fs t f h)

theorem dispatch_present_of_ok (render : (ℕ × ℚ × ℚ) → Except Unit Content)
    (clobber : Bool) :
    ∀ (shard : List (ℕ × ℚ × ℚ)) (fs : FStore) (t : ℕ × ℚ × ℚ), t ∈ shard →
      (∃ c, render t = .ok c) →
      (((dispatch render clobber fs shard).2.1) (FName.out t.1)).isSome := by
  intro shard
  induction shard with
  | nil => intro fs t h; simp at h
  | cons s ts ih =>
    intro fs t hmem hok
    obtain ⟨c, hc⟩ := hok
    simp only [dispatch]
    rcases List.mem_cons.mp hmem with rfl | hts
    · exact dispatch_isSome_mono render clobber ts _ _
        (makePSFImage_writes render clobber fs t c hc)
    · exact ih _ t hts ⟨c, hc⟩

theorem metaStep_out (fs : FStore) (j n : ℕ) (clobber : Bool) (i : ℕ) :
    metaStep fs j n clobber (FName.out i) = fs (FName.out i) := by
  unfold metaStep
  split_ifs
  · exact Function.update_noteq (by intro h; exact FName.noConfusion h) _ _
  · rfl

theorem metaStep_meta_isSome (fs : FStore) (j n : ℕ) (clobber : Bool) :
    ((metaStep fs j n clobber) (FName.meta j n)).isSome := by
  unfold metaStep
  split_ifs with h
  · simp [Function.update_same]
  · rcases hfs : fs (FName.meta j n) with _ | v
    · exact absurd (Or.inl (by simp [hfs])) h
    · simp [hfs]

theorem metaStep_isSome_mono (fs : FStore) (j n : ℕ) (clobber : Bool) (f : FName)
    (h : (fs f).isSome) : ((metaStep fs j n clobber) f).isSome := by
  unfold metaStep
  split_ifs
  · by_cases hf : f = FName.meta j n
    · subst hf; simp [Function.update_same]
    · simpa [Function.update_noteq hf] using h
  · exact h

theorem metaStep_id_of_present (fs : FStore) (j n : ℕ)
    (h : (fs (FName.meta j n)).isSome) : metaStep fs j n false = fs := by
  unfold metaStep
  have hn : (fs (FName.meta j n)).isNone = false := by
    rcases hfs : fs (FName.meta j n) with _ | v
    · rw [hfs] at h; simp at h
    · simp
  rw [if_neg (by simp [hn])]

theorem runRender_isSome_mono (render : (ℕ × ℚ × ℚ) → Except Unit Content)
    (clobber : Bool) (shard : List (ℕ × ℚ × ℚ)) (j n : ℕ) (fs0 : FStore) (f : FName)
    (h : (fs0 f).isSome) :
    ((runRender render clobber shard j n fs0).fs f).isSome := by
  unfold runRender
  split_ifs
  · exact metaStep_isSome_mono fs0 j n clobber f h
  · exact dispatch_isSome_mono render clobber shard _ f
      (metaStep_isSome_mono fs0 j n clobber f h)

theorem runRender_retains (render : (ℕ × ℚ × ℚ) → Except Unit Content)
    (clobber : Bool) (shard : List (ℕ × ℚ × ℚ)) (j n : ℕ) (fs0 : FStore) :
    ∀ t ∈ shard, (∃ c, render t = .ok c) →
      ((runRender render clobber shard j n fs0).fs (FName.out t.1)).isSome := by
  intro t hmem hok
  unfold runRender
  split_ifs with h
  · have h2 := h.2
    rw [allPresent, List.all_eq_true] at h2
    exact h2 t hmem
  · exact dispatch_present_of_ok render clobber shard _ t hmem hok

theorem runRender_fatal_iff (render : (ℕ × ℚ × ℚ) → Except Unit Content)
    (clobber : Bool) (shard : List (ℕ × ℚ × ℚ)) (j n : ℕ) (fs0 : FStore) :
    (runRender render clobber shard j n fs0).fatal = true ↔
      ¬ (clobber = false ∧ allPresent (metaStep fs0 j n clobber) shard = true)
        ∧ (dispatch render clobber (metaStep fs0 j n clobber) shard).1.all (fun b => b) = false := by
  unfold runRender
  split_ifs with h
  · constructor
    · intro hf; simp at hf
    · rintro ⟨hnc, -⟩; exact absurd h hnc
  · simp [h, Bool.not_eq_true']

theorem makePSFImage_sibling (render render' : (ℕ × ℚ × ℚ) → Except Unit Content)
    (clobber : Bool) (i0 : ℕ) (t : ℕ × ℚ × ℚ) (ht : t.1 ≠ i0)
    (hr : render' t = render t) (fs fs' : FStore)
    (hagree : ∀ f, f ≠ FName.out i0 → fs f = fs' f) :
    (makePSFImage render clobber fs t).ok = (makePSFImage render' clobber fs' t).ok
      ∧ (makePSFImage render clobber fs t).attempted
          = (makePSFImage render' clobber fs' t).attempted
      ∧ ∀ f, f ≠ FName.out i0 →
          (makePSFImage render clobber fs t).fs f = (makePSFImage render' clobber fs' t).fs f := by
  have hout : fs (FName.out t.1) = fs' (FName.out t.1) :=
    hagree _ (fun h => ht (FName.out.inj h))
  unfold makePSFImage
  rw [hr, hout]
  split_ifs with hcase
  · exact ⟨rfl, rfl, fun f hf => hagree f hf⟩
  · cases hc : render t with
    | ok c =>
      refine ⟨rfl, rfl, fun f hf => ?_⟩
      by_cases hfo : f = FName.out t.1
      · subst hfo; simp [Function.update_same]
      · simp [Function.update_noteq hfo, hagree f hf]
    | error e => exact ⟨rfl, rfl, fun f hf => hagree f hf⟩

theorem dispatch_sibling (render render' : (ℕ × ℚ × ℚ) → Except Unit Content)
    (clobber : Bool) (i0 : ℕ)
    (hro : ∀ t : ℕ × ℚ × ℚ, t.1 ≠ i0 → render' t = render t) :
    ∀ (shard : List (ℕ × ℚ × ℚ)) (fs fs' : FStore),
      (∀ f, f ≠ FName.out i0 → fs f = fs' f) →
      (∀ (k : ℕ) (t : ℕ × ℚ × ℚ), shard[k]? = some t → t.1 ≠ i0 →
          (dispatch render clobber fs shard).1[k]?
            = (dispatch render' clobber fs' shard).1[k]?)
      ∧ (∀ f, f ≠ FName.out i0 →
          (dispatch render clobber fs shard).2.1 f
            = (dispatch render' clobber fs' shard).2.1 f) := by
  intro shard
  induction shard with
  | nil =>
    intro fs fs' hagree
    exact ⟨fun k t hk => by simp at hk, fun f hf => hagree f hf⟩
  | cons t ts ih =>
    intro fs fs' hagree
    by_cases ht : t.1 = i0
    · have hstep : ∀ f, f ≠ FName.out i0 →
          (makePSFImage render clobber fs t).fs f = (makePSFImage render' clobber fs' t).fs f := by
        intro f hf
        rw [makePSFImage_only_out render clobber fs t f (by rw [ht]; exact hf),
            makePSFImage_only_out render' clobber fs' t f (by rw [ht]; exact hf)]
        exact hagree f hf
      obtain ⟨ihk, ihf⟩ := ih (makePSFImage render clobber fs t).fs
        (makePSFImage render' clobber fs' t).fs hstep
      constructor
      · intro k s hk hs
        cases k with
        | zero =>
          obtain rfl : t = s := by simpa using hk
          exact absurd ht hs
        | succ k =>
          simp only [dispatch, List.getElem?_cons_succ]
          exact ihk k s (by simpa using hk) hs
      · intro f hf
        simp only [dispatch]
        exact ihf f hf
    · obtain ⟨hok, hatt, hfs⟩ := makePSFImage_sibling render render' clobber i0 t ht
        (hro t ht) fs fs' hagree
      obtain ⟨ihk, ihf⟩ := ih (makePSFImage render clobber fs t).fs
        (makePSFImage render' clobber fs' t).fs hfs
      constructor
      · intro k s hk hs
        cases k with
        | zero =>
          simp only [dispatch, List.getElem?_cons_zero]
          rw [hok]
        | succ k =>
          simp only [dispatch, List.getElem?_cons_succ]
          exact ihk k s (by simpa using hk) hs
      · intro f hf
        simp only [dispatch]
        exact ihf f hf

/-! ## Claim theorems -/

set_option maxRecDepth 4000 in
/-- C1, as stated, is false on the code: the partitioner computes boundaries
with binary64 float arithmetic, and with npsf = 1, njobs = 49 the product
(1/49)*49 rounds to just below 1, so int((1/49)*49) = 0 while the claimed
boundary floor(1*49/49) = 1.  Job 48 receives the empty slice instead of
index set containing 0, and the union of all 49 slices is empty: it does not
reconstruct the original one-element target list. -/
theorem shard_partition_claim_false :
    bnd 1 49 49 = 0 ∧ (1 * 48) / 49 = 0 ∧ (1 * 49) / 49 = 1 ∧
    shardSlice [0] 1 49 48 = ([] : List ℕ) ∧
    ((List.range 49).map (fun j => shardSlice [0] 1 49 j)).flatten = ([] : List ℕ) := by
  decide

/-- C1 (amended): for every target list and every totalJobs >= 1, the job
partitioner gives job j the contiguous slice between the float-computed
boundaries int((npsf/njobs)*j) and int((npsf/njobs)*(j+1)); consecutive jobs
share a boundary, the position sets of the slices are pairwise disjoint (no
duplicates), and the concatenation of the slices over all jobs is the prefix
of the list up to the last computed boundary — the exact original list
precisely when that boundary reaches the list length, which holds in the
npsf = 4, njobs = 2 scenario: job 0 selects exactly indices 0,1 and job 1
exactly 2,3. -/
theorem shard_partition_amended {α : Type} (l : List α) (npsf njobs : ℕ)
    (hT : 1 ≤ njobs) (hl : l.length = npsf) :
    (∀ j, shardSlice l npsf njobs j
        = (l.take (bndN npsf njobs (j+1))).drop (bndN npsf njobs j)) ∧
    (∀ j k, j < k → Disjoint
        (Finset.Ico (min (bndN npsf njobs j) npsf) (min (bndN npsf njobs (j+1)) npsf))
        (Finset.Ico (min (bndN npsf njobs k) npsf) (min (bndN npsf njobs (k+1)) npsf))) ∧
    ((List.range njobs).map (fun j => shardSlice l npsf njobs j)).flatten
        = l.take (bndN npsf njobs njobs) ∧
    (shardSlice [0,1,2,3] 4 2 0 = ([0,1] : List ℕ)
      ∧ shardSlice [0,1,2,3] 4 2 1 = ([2,3] : List ℕ)) := by
  refine ⟨fun j => shardSlice_eq_dropTake l npsf njobs j, ?_, shardSlices_join l npsf njobs,
    by decide, by decide⟩
  intro j k hjk
  rw [Finset.disjoint_left]
  intro x hx hx'
  rw [Finset.mem_Ico] at hx hx'
  have h1 : bndN npsf njobs (j+1) ≤ bndN npsf njobs k := bndN_mono npsf njobs (by omega)
  have h2 : min (bndN npsf njobs (j+1)) npsf ≤ min (bndN npsf njobs k) npsf :=
    min_le_min h1 le_rfl
  omega

/-- Witness for the amended C1, at the documented scenario npsf = 4,
njobs = 2 on the list [0,1,2,3]. -/
theorem shard_partition_amended_witness :
    shardSlice [0,1,2,3] 4 2 0 = ([0,1] : List ℕ)
      ∧ shardSlice [0,1,2,3] 4 2 1 = ([2,3] : List ℕ) :=
  (shard_partition_amended ([0,1,2,3] : List ℕ) 4 2 (by norm_num) rfl).2.2.2

/-- C3, as stated, is false on the code: there is no sharding validation.
The invalid pair job = 3, njobs = 2 (npsf = 16) is not rejected with any
error: the sharding stage succeeds with an empty shard, after which the run
completes as a no-op. -/
theorem shard_validation_claim_false :
    shardStage (List.range 16) 16 2 3 = .ok [] := by decide

/-- C3 (amended): totalJobs = 0 makes the run fail with an uncaught
ZeroDivisionError at the division npsf/njobs, which happens before any
rendering work; but out-of-range job values are not rejected: with npsf = 16,
njobs = 2 the pair job = 3 yields an ok empty shard and no error of any
kind. -/
theorem shard_validation_amended {α : Type} (l : List α) (npsf job : ℤ)
    (hl : l.length = 16) :
    shardStage l npsf 0 job = .error .zeroDivision ∧
    shardStage l 16 2 3 = .ok [] := by
  constructor
  · unfold shardStage pyDivFloat
    rw [if_pos rfl]
    rfl
  · unfold shardStage pyDivFloat
    rw [if_neg (by norm_num : ¬ (2:ℤ) = 0)]
    have h24 : pyInt (pyMulFloatInt (roundDouble (((16:ℤ) : ℚ) / ((2:ℤ) : ℚ))) 3) = 24 := by
      decide
    have h32 : pyInt (pyMulFloatInt (roundDouble (((16:ℤ) : ℚ) / ((2:ℤ) : ℚ))) (3+1)) = 32 := by
      decide
    show Except.ok (pySlice l (pyInt (pyMulFloatInt (roundDouble (((16:ℤ) : ℚ) / ((2:ℤ) : ℚ))) 3))
      (pyInt (pyMulFloatInt (roundDouble (((16:ℤ) : ℚ) / ((2:ℤ) : ℚ))) (3+1)))) = Except.ok []
    rw [h24, h32]
    congr 1
    rw [pySlice_of_nonneg l (by norm_num) (by norm_num)]
    apply List.drop_of_length_le
    rw [List.length_take]
    simp [hl]

/-- Witness for the amended C3: a zero totalJobs raises ZeroDivisionError on
a concrete 16-element list with npsf = 7, job = 5. -/
theorem shard_validation_amended_witness :
    shardStage (List.range 16) 7 0 5 = .error .zeroDivision :=
  (shard_validation_amended (List.range 16) 7 5 (by decide)).1

/-- C9: the full unsharded target list and its draw trace, computed at lines
182-192 before the sharding parameters are consulted, are identical for any
two (job, totalJobs) pairs, and the shard of a run is obtained by merely
slicing that shared list; sharding never perturbs the random sequence or the
generated targets. -/
theorem sharding_immaterial (udev : ℕ → ℕ → ℚ) (seed npsf : ℕ) (fS : ℚ)
    (job njobs job' njobs' : ℤ) :
    (mainPipeline udev seed npsf fS job njobs).1
        = (mainPipeline udev seed npsf fS job' njobs').1
    ∧ (mainPipeline udev seed npsf fS job njobs).2
        = shardStage (mainPipeline udev seed npsf fS job' njobs').1.1 (npsf : ℤ) njobs job :=
  ⟨rfl, rfl⟩

/-- C4: in every run that synthesizes an atmosphere, the per-target sky-angle
draws are taken from the distinct random stream seeded seed + 1 and consumed
before any atmosphere-stream draw, two uniform draws in [0, fieldSize) per
target in increasing target-index order; the atmosphere layer draws (speed
then direction, per layer in increasing altitude order) come from the stream
advanced from the configured seed. -/
theorem rng_stream_order (udev : ℕ → ℕ → ℚ) (rpow : ℚ → ℚ) (seed npsf n : ℕ)
    (fS maxSpd r0b : ℚ)
    (hu : ∀ s c, 0 ≤ udev s c ∧ udev s c < 1) (hf : 0 < fS) :
    mainDrawTrace udev rpow seed npsf n fS maxSpd r0b
        = ((List.range (2*npsf)).map (fun c => (seed+1, c)))
          ++ ((List.range (2*n)).map (fun c => (seed, c)))
    ∧ seed + 1 ≠ seed
    ∧ (∀ i, i < npsf → (genThetas udev seed npsf fS).1[i]?
        = some (i, udev (seed+1) (2*i) * fS, udev (seed+1) (2*i+1) * fS))
    ∧ (∀ i, i < npsf → 0 ≤ udev (seed+1) (2*i) * fS ∧ udev (seed+1) (2*i) * fS < fS
        ∧ 0 ≤ udev (seed+1) (2*i+1) * fS ∧ udev (seed+1) (2*i+1) * fS < fS)
    ∧ (∀ i, i < n →
        ((getAtm udev rpow seed n maxSpd r0b).1[i]?).map (fun L => (L.speed, L.dirn))
          = some (udev seed (2*i) * maxSpd, udev seed (2*i+1) * 360))
    ∧ (∀ i, 2 ≤ n → i + 1 < n →
        ((getAtm udev rpow seed n maxSpd r0b).1[i]?).map (fun L => L.alt)
            = some (some (altQ n i))
          ∧ altQ n i < altQ n (i+1)) := by
  have htracet : (genThetas udev seed npsf fS).2
      = (List.range (2*npsf)).map (fun c => (seed+1, c)) := by
    unfold genThetas
    rw [genThetasAux_trace, ← List.range_eq_range']
  have htracea : (getAtm udev rpow seed n maxSpd r0b).2
      = (List.range (2*n)).map (fun c => (seed, c)) := by
    unfold getAtm
    rw [getAtmAux_trace, ← List.range_eq_range']
  refine ⟨?_, by omega, ?_, ?_, ?_, ?_⟩
  · unfold mainDrawTrace
    rw [htracet, htracea]
  · intro i hi
    unfold genThetas
    rw [genThetasAux_get, if_pos hi]
    simp
  · intro i hi
    have h1 := (hu (seed+1) (2*i)).1
    have h2 := (hu (seed+1) (2*i)).2
    have h3 := (hu (seed+1) (2*i+1)).1
    have h4 := (hu (seed+1) (2*i+1)).2
    refine ⟨mul_nonneg h1 hf.le, ?_, mul_nonneg h3 hf.le, ?_⟩
    · calc udev (seed+1) (2*i) * fS < 1 * fS := mul_lt_mul_of_pos_right h2 hf
      _ = fS := one_mul fS
    · calc udev (seed+1) (2*i+1) * fS < 1 * fS := mul_lt_mul_of_pos_right h4 hf
      _ = fS := one_mul fS
  · intro i hi
    unfold getAtm
    rw [getAtmAux_get, if_pos hi]
    simp
  · intro i hn hi
    constructor
    · unfold getAtm
      rw [getAtmAux_get, if_pos (by omega : i < n)]
      simp [List.getD_eq_getElem?_getD, npAlts_get hn (by omega : i < n)]
    · exact altQ_strictMono hn hi

/-- Witness for C4 at a concrete deviate table and configuration
(seed 1, npsf 2, nlayers 3): the program-order draw trace is the seed+2
theta draws followed by the seed-stream atmosphere draws. -/
theorem rng_stream_order_witness :
    mainDrawTrace udevHalf rpowOne 1 2 3 (408/10) 20 (2/10)
        = ((List.range (2*2)).map (fun c => (1+1, c)))
          ++ ((List.range (2*3)).map (fun c => (1, c))) :=
  (rng_stream_order udevHalf rpowOne 1 2 3 (408/10) 20 (2/10)
    (fun _ _ => ⟨by norm_num [udevHalf], by norm_num [udevHalf]⟩) (by norm_num)).1

/-- C8: for every layerCount >= 2 and every seed, the synthesized layer
weights (linear interpolation of the fixed 6-point Ellerbroek table at the
evenly spaced altitudes, then renormalized) sum to exactly 1 in the
exact-rational model of the computation, and get_atm produces exactly
layerCount layers. -/
theorem weights_sum_one (udev : ℕ → ℕ → ℚ) (rpow : ℚ → ℚ) (seed n : ℕ)
    (maxSpd r0b : ℚ) (hn : 2 ≤ n) :
    osum (wNorm n) = some 1
    ∧ (getAtm udev rpow seed n maxSpd r0b).1.length = n :=
  ⟨wNorm_sum hn, getAtm_len udev rpow seed n maxSpd r0b⟩

/-- Witness for C8 at the default configuration nlayers = 6. -/
theorem weights_sum_one_witness :
    osum (wNorm 6) = some 1
    ∧ (getAtm udevHalf rpowOne 1 6 20 (2/10)).1.length = 6 :=
  weights_sum_one udevHalf rpowOne 1 6 20 (2/10) (by norm_num)

/-- C6, as stated, is false on the code: there is no layer-count validation
and no ConfigurationError is raised; with nlayers = 1 the synthesis runs to
completion and produces one layer whose altitude is NaN (numpy evaluates the
0.0/0 altitude spacing to NaN with a RuntimeWarning, not an exception). -/
theorem layer_count_claim_false :
    getAtmRun udevHalf rpowOne 1 1 20 (2/10)
      = .ok (getAtm udevHalf rpowOne 1 1 20 (2/10))
    ∧ ((getAtm udevHalf rpowOne 1 1 20 (2/10)).1.map (fun L => L.alt)) = [none]
    ∧ (getAtm udevHalf rpowOne 1 1 20 (2/10)).1.length = 1 := by
  refine ⟨rfl, ?_, ?_⟩ <;> decide

/-- C6 (amended): for layerCount < 2 parameter synthesis never raises:
nlayers = 0 produces zero layers and nlayers = 1 produces one layer whose
altitude is NaN, and synthesis proceeds to hand these degenerate values to
the collaborator. -/
theorem layer_count_amended (udev : ℕ → ℕ → ℚ) (rpow : ℚ → ℚ) (seed : ℕ)
    (maxSpd r0b : ℚ) (n : ℕ) (hn : n < 2) :
    getAtmRun udev rpow seed n maxSpd r0b = .ok (getAtm udev rpow seed n maxSpd r0b)
    ∧ (getAtm udev rpow seed n maxSpd r0b).1.length = n
    ∧ ((getAtm udev rpow seed n maxSpd r0b).1.map (fun L => L.alt))
        = if n = 0 then [] else [none] := by
  refine ⟨rfl, getAtm_len _ _ _ _ _ _, ?_⟩
  interval_cases n
  · simp [getAtm, getAtmAux]
  · simp [getAtm, getAtmAux, npAlts]

/-- Witness for the amended C6 at nlayers = 1 with a concrete deviate
table. -/
theorem layer_count_amended_witness :
    ((getAtm udevHalf rpowOne 3 1 20 (2/10)).1.map (fun L => L.alt))
        = if 1 = 0 then [] else [none] :=
  (layer_count_amended udevHalf rpowOne 3 20 (2/10) 1 (by norm_num)).2.2

/-- C5: a target whose output file exists is reported successful without any
recomputation when clobber is unset, and when every render of the shard
succeeds, running render mode a second time with the same configuration
changes nothing: the filesystem is identical, zero render attempts are made
(the run exits early with all outputs already present), and the run is not
fatal. -/
theorem idempotent_rerun (render : (ℕ × ℚ × ℚ) → Except Unit Content)
    (shard : List (ℕ × ℚ × ℚ)) (j n : ℕ) (fs0 : FStore)
    (hok : ∀ t ∈ shard, ∃ c, render t = .ok c) :
    (∀ (fs : FStore) (t : ℕ × ℚ × ℚ), (fs (FName.out t.1)).isSome →
        makePSFImage render false fs t = ⟨true, fs, false, []⟩)
    ∧ (runRender render false shard j n (runRender render false shard j n fs0).fs).fs
        = (runRender render false shard j n fs0).fs
    ∧ (runRender render false shard j n (runRender render false shard j n fs0).fs).renders = 0
    ∧ (runRender render false shard j n (runRender render false shard j n fs0).fs).fatal
        = false := by
  have hall : ∀ t ∈ shard,
      ((runRender render false shard j n fs0).fs (FName.out t.1)).isSome := fun t ht =>
    runRender_retains render false shard j n fs0 t ht (hok t ht)
  have hmeta : ((runRender render false shard j n fs0).fs (FName.meta j n)).isSome := by
    unfold runRender
    split_ifs
    · exact metaStep_meta_isSome fs0 j n false
    · exact dispatch_isSome_mono render false shard _ _ (metaStep_meta_isSome fs0 j n false)
  have hms : metaStep (runRender render false shard j n fs0).fs j n false
      = (runRender render false shard j n fs0).fs :=
    metaStep_id_of_present _ j n hmeta
  have hap : allPresent (metaStep (runRender render false shard j n fs0).fs j n false)
      shard = true := by
    rw [hms, allPresent, List.all_eq_true]
    exact fun t ht => hall t ht
  have hrun2 : runRender render false shard j n (runRender render false shard j n fs0).fs
      = ⟨metaStep (runRender render false shard j n fs0).fs j n false, 0, false⟩ := by
    unfold runRender
    rw [if_pos ⟨rfl, hap⟩]
  refine ⟨fun fs t h => makePSFImage_skip render fs t h, ?_, ?_, ?_⟩
  · rw [hrun2]; exact hms
  · rw [hrun2]
  · rw [hrun2]

/-- Witness for C5: a one-target shard rendered successfully once, then
rerun: the second run performs zero renders and is not fatal. -/
theorem idempotent_rerun_witness :
    (runRender renderOk false [(0, 1/2, 1/2)] 0 1
        (runRender renderOk false [(0, 1/2, 1/2)] 0 1 emptyFS).fs).renders = 0
    ∧ (runRender renderOk false [(0, 1/2, 1/2)] 0 1
        (runRender renderOk false [(0, 1/2, 1/2)] 0 1 emptyFS).fs).fatal = false :=
  ⟨(idempotent_rerun renderOk [(0, 1/2, 1/2)] 0 1 emptyFS
      (fun t _ => ⟨Content.img t.1 t.2, rfl⟩)).2.2.1,
   (idempotent_rerun renderOk [(0, 1/2, 1/2)] 0 1 emptyFS
      (fun t _ => ⟨Content.img t.1 t.2, rfl⟩)).2.2.2⟩

/-- C2, as stated, is false in one respect: a failing target is caught and
reported as a per-target failure, but nothing is logged — the bare except
clause returns False silently, the worker prints nothing on any path, and no
partial output file is left for the failed target. -/
theorem per_target_failure_not_logged :
    (makePSFImage (renderFailAt 0) false emptyFS (0, 1/2, 1/2)).ok = false
    ∧ (makePSFImage (renderFailAt 0) false emptyFS (0, 1/2, 1/2)).log = []
    ∧ (makePSFImage (renderFailAt 0) false emptyFS (0, 1/2, 1/2)).fs (FName.out 0) = none := by
  refine ⟨?_, ?_, ?_⟩ <;> rfl

/-- C2 (amended): any failure during one target's rendering or image-writing
is caught and reported as a per-target failure — silently, without logging —
and does not abort or perturb sibling targets (all flags and files of other
indices are unchanged if one target's collaborator is swapped for a failing
one); after the batch, the run is fatal exactly when the dispatch ran and
some target reported failure, while outputs written for successful targets
and all pre-existing files are retained. -/
theorem per_target_failure_amended
    (render render' : (ℕ × ℚ × ℚ) → Except Unit Content) (clobber : Bool) (i0 : ℕ)
    (shard : List (ℕ × ℚ × ℚ)) (j n : ℕ) (fs0 : FStore)
    (hro : ∀ t : ℕ × ℚ × ℚ, t.1 ≠ i0 → render' t = render t) :
    (∀ (fs : FStore) (t : ℕ × ℚ × ℚ) (e : Unit), render t = .error e →
        ¬ ((fs (FName.out t.1)).isSome ∧ clobber = false) →
        makePSFImage render clobber fs t = ⟨false, fs, true, []⟩)
    ∧ ((∀ (k : ℕ) (t : ℕ × ℚ × ℚ), shard[k]? = some t → t.1 ≠ i0 →
          (dispatch render clobber fs0 shard).1[k]?
            = (dispatch render' clobber fs0 shard).1[k]?)
        ∧ (∀ f, f ≠ FName.out i0 →
            (dispatch render clobber fs0 shard).2.1 f
              = (dispatch render' clobber fs0 shard).2.1 f))
    ∧ ((runRender render clobber shard j n fs0).fatal = true ↔
        ¬ (clobber = false ∧ allPresent (metaStep fs0 j n clobber) shard = true)
          ∧ (dispatch render clobber (metaStep fs0 j n clobber) shard).1.all
              (fun b => b) = false)
    ∧ (∀ t ∈ shard, (∃ c, render t = .ok c) →
        ((runRender render clobber shard j n fs0).fs (FName.out t.1)).isSome)
    ∧ (∀ f, (fs0 f).isSome → ((runRender render clobber shard j n fs0).fs f).isSome) :=
  ⟨fun fs t e he hns => makePSFImage_fail render clobber fs t e he hns,
    dispatch_sibling render render' clobber i0 hro shard fs0 fs0 (fun _ _ => rfl),
    runRender_fatal_iff render clobber shard j n fs0,
    runRender_retains render clobber shard j n fs0,
    fun f h => runRender_isSome_mono render clobber shard j n fs0 f h⟩

/-- Witness for the amended C2: with a two-target shard whose target 0 fails,
the run is fatal exactly because the dispatch ran and a flag is false. -/
theorem per_target_failure_amended_witness :
    (runRender (renderFailAt 0) false [(0, 1/2, 1/2), (1, 1/3, 1/3)] 0 1 emptyFS).fatal
        = true ↔
      ¬ (false = false
          ∧ allPresent (metaStep emptyFS 0 1 false) [(0, 1/2, 1/2), (1, 1/3, 1/3)] = true)
        ∧ (dispatch (renderFailAt 0) false (metaStep emptyFS 0 1 false)
            [(0, 1/2, 1/2), (1, 1/3, 1/3)]).1.all (fun b => b) = false :=
  (per_target_failure_amended (renderFailAt 0) renderOk false 0
    [(0, 1/2, 1/2), (1, 1/3, 1/3)] 0 1 emptyFS
    (fun t ht => by simp [renderOk, renderFailAt, ht])).2.2.1

/-- C7, as stated, is false: for an atmosphere filename without ".pkl"
(here "output/atm") the numbered-filename derivation is the identity, every
probe of the load loop finds the same existing base file, and the scan never
terminates. -/
theorem screen_scan_claim_false :
    ¬ ScanTerminates ["output/atm".toList] ("output/atm".toList) := by
  have hc : ∀ i, screenName ("output/atm".toList) i = "output/atm".toList := fun i =>
    screenName_no_pkl (by decide) i
  rintro ⟨f, hf⟩
  rw [scanAux_stuck _ _ (fun i => by rw [hc i]; exact List.mem_singleton.mpr rfl) f 0] at hf
  simp at hf

/-- C7 (amended): the per-screen scan starts at index 0 and terminates iff
some numbered filename is absent from the (finite) filesystem; whenever
index k's file is missing, the loop stops at the first missing index m and
reassembles exactly the screens found at indices 0..m-1, in index order. -/
theorem screen_scan_amended (fs : List (List Char)) (base : List Char) (k : ℕ)
    (hk : screenName base k ∉ fs) :
    ScanTerminates fs base
    ∧ ∃ m, (∀ j, j < m → screenName base j ∈ fs) ∧ screenName base m ∉ fs
        ∧ ∀ f, m < f →
            scanAux fs base f 0 = some ((List.range m).map (screenName base)) := by
  have hex : ∃ m, screenName base m ∉ fs := ⟨k, hk⟩
  have hmout : screenName base (Nat.find hex) ∉ fs := Nat.find_spec hex
  have hmin : ∀ j, j < Nat.find hex → screenName base j ∈ fs := fun j hj =>
    not_not.mp (Nat.find_min hex hj)
  have hspec : ∀ f, Nat.find hex < f →
      scanAux fs base f 0 = some ((List.range (Nat.find hex)).map (screenName base)) := by
    intro f hf
    have h := scanAux_spec fs base (Nat.find hex) 0
      (fun j hj => by simpa using hmin j hj) (by simpa using hmout) f hf
    simpa using h
  exact ⟨⟨Nat.find hex + 1, by rw [hspec (Nat.find hex + 1) (by omega)]; rfl⟩,
    Nat.find hex, hmin, hmout, hspec⟩

/-- Witness for the amended C7: with base name "atm.pkl" and only the file
"atm_0.pkl" on disk, the scan terminates. -/
theorem screen_scan_amended_witness :
    ScanTerminates ["atm_0.pkl".toList] ("atm.pkl".toList) :=
  (screen_scan_amended ["atm_0.pkl".toList] ("atm.pkl".toList) 1 (by decide)).1

/-- C10: for a per-screen dump whose atmosphere name does not contain
".pkl", the per-screen output path is computed by replacing ".pkl" in the
base path, which leaves the path unchanged, so all layerCount screens are
written to the same single file and only the last screen's data survives the
dump. -/
theorem per_screen_dump_overwrite (base : List Char) (screens : List ℕ)
    (fs0 : List Char → Option ℕ) (hnc : containsSub pklChars base = false)
    (hne : screens ≠ []) :
    (∀ i, screenName base i = base)
    ∧ dumpScreens base screens fs0
        = Function.update fs0 base (some (screens.getLast hne)) := by
  have hc : ∀ i, screenName base i = base := fun i => screenName_no_pkl hnc i
  refine ⟨hc, ?_⟩
  unfold dumpScreens
  rw [dumpScreensAux_const hc screens 0 fs0, List.getLast?_eq_getLast screens hne]

/-- Witness for C10: dumping three screens with base name "output/atm"
leaves a single file holding only the last screen. -/
theorem per_screen_dump_overwrite_witness :
    dumpScreens ("output/atm".toList) [10, 20, 30] (fun _ => none)
        = Function.update (fun _ => none) ("output/atm".toList) (some 30) := by
  have h := (per_screen_dump_overwrite ("output/atm".toList) [10, 20, 30]
    (fun _ => none) (by decide) (by decide)).2
  simpa using h
